import Mathlib

/-
Verification of the acBridge toneburst measurement scripts
(measStim.py and measResp.py): the frequency planner, the stimulus
synthesizer, the quadrature demodulator, the cell sequencer, and the
run-level error handling.

Numeric modelling conventions:
- Python floats are modelled as exact rationals (in the planner, whose
  inputs and intermediate values are rational) or as reals (in the
  synthesizer and demodulator, which evaluate `math.sin`).
- Python `int()` truncates toward zero; Python `round()` rounds half to
  even.  Both are modelled explicitly below.
- A Python `ZeroDivisionError` is modelled by an explicit `Except` error
  at the point where the interpreter would raise.
-/

deriving instance DecidableEq for Except

/-- Python `int()` applied to a rational value: truncation toward zero. -/
def pyIntQ (q : ℚ) : ℤ := if 0 ≤ q then ⌊q⌋ else ⌈q⌉

/-- Python `round()` applied to a rational value: round to nearest,
ties to even. -/
def pyRoundQ (q : ℚ) : ℤ :=
  if q - ⌊q⌋ < 1 / 2 then ⌊q⌋
  else if 1 / 2 < q - ⌊q⌋ then ⌊q⌋ + 1
  else if 2 ∣ ⌊q⌋ then ⌊q⌋ else ⌊q⌋ + 1

/-- Exceptions the scripts can raise while computing (as opposed to the
analysis-level failures of measResp.py, modelled separately). -/
inductive PyError where
  | zeroDivision
  | attributeError
deriving DecidableEq

/-- The derived burst geometry stored back into a measurement record by
`fillInDetails` in measStim.py: `cellSamples`, `countWaves`, and the
2-decimal rounded `actualFreq` (reporting only). -/
structure Geom where
  cellSamples : ℤ
  countWaves : ℤ
  actualFreq : ℚ
deriving DecidableEq

/-- measStim.py line 51: `cellQuartWaves = 4 * int ((reqFreq / 2 - 1) / 4) + 1`. -/
def cellQuartWavesOf (reqFreq : ℚ) : ℤ := 4 * pyIntQ ((reqFreq / 2 - 1) / 4) + 1

/-- measStim.py lines 52-54: `quartWaveTime = 1 / reqFreq / 4`;
`cellTime = cellQuartWaves * quartWaveTime`;
`cellSamp = int (cellTime * sampRate)`. -/
def cellSampOf (sampRate : ℕ) (reqFreq : ℚ) : ℤ :=
  pyIntQ ((cellQuartWavesOf reqFreq : ℚ) * (1 / reqFreq / 4) * sampRate)

/-- measStim.py line 55: `actFreq = cellQuartWaves / cellSamp / 4 * sampRate`. -/
def actFreqOf (sampRate : ℕ) (reqFreq : ℚ) : ℚ :=
  (cellQuartWavesOf reqFreq : ℚ) / cellSampOf sampRate reqFreq / 4 * sampRate

/-- measStim.py line 58: `numWaves = round (4 * actFreq * cellSamp / sampRate)`. -/
def numWavesOf (sampRate : ℕ) (reqFreq : ℚ) : ℤ :=
  pyRoundQ (4 * actFreqOf sampRate reqFreq * cellSampOf sampRate reqFreq / sampRate)

/-- `fillInDetails` from measStim.py (lines 48-59).  A
`ZeroDivisionError` is raised by `1 / reqFreq` when `reqFreq = 0` and by
`cellQuartWaves / cellSamp` when `cellSamp = 0`.  (When `sampRate = 0`
the computation of `cellSamp` already yields 0, so the division by
`sampRate` in `numWaves` is only reached with `sampRate ≠ 0`.) -/
def fillInDetails (sampRate : ℕ) (reqFreq : ℚ) : Except PyError Geom :=
  if reqFreq = 0 then .error .zeroDivision
  else if cellSampOf sampRate reqFreq = 0 then .error .zeroDivision
  else .ok ⟨cellSampOf sampRate reqFreq, numWavesOf sampRate reqFreq,
    (pyRoundQ (actFreqOf sampRate reqFreq * 100) : ℚ) / 100⟩

theorem pyIntQ_zero : pyIntQ 0 = 0 := by decide

theorem pyIntQ_nonneg_of_neg_one_lt {q : ℚ} (h : -1 < q) : 0 ≤ pyIntQ q := by
  unfold pyIntQ
  split
  · exact Int.floor_nonneg.2 (by assumption)
  · have : (-1 : ℤ) < ⌈q⌉ := Int.lt_ceil.2 (by exact_mod_cast h)
    omega

theorem pyRoundQ_intCast (k : ℤ) : pyRoundQ (k : ℚ) = k := by
  unfold pyRoundQ
  rw [Int.floor_intCast]
  norm_num

theorem cellQuartWavesOf_pos {reqFreq : ℚ} (hf : 0 < reqFreq) :
    1 ≤ cellQuartWavesOf reqFreq := by
  have hk0 : 0 ≤ pyIntQ ((reqFreq / 2 - 1) / 4) := by
    apply pyIntQ_nonneg_of_neg_one_lt
    have : (0 : ℚ) < reqFreq / 2 := by positivity
    linarith
  unfold cellQuartWavesOf
  omega

/-- C9: for every positive `requestedFrequency` and every `sampleRate`
for which the planner succeeds (equivalently, for which the derived
`cellSamples` is nonzero), the stored `countWaves` equals
`cellQuartWaves = 4 * int((reqFreq / 2 - 1) / 4) + 1` exactly; this
value is of the form `4k + 1` with `k ≥ 0`, hence odd and at least 1. -/
theorem c9_planner_wave_count (sampRate : ℕ) (reqFreq : ℚ) (g : Geom)
    (hf : 0 < reqFreq) (h : fillInDetails sampRate reqFreq = .ok g) :
    g.countWaves = 4 * pyIntQ ((reqFreq / 2 - 1) / 4) + 1 ∧
    (∃ k : ℤ, 0 ≤ k ∧ g.countWaves = 4 * k + 1) ∧
    Odd g.countWaves ∧ 1 ≤ g.countWaves := by
  unfold fillInDetails at h
  rw [if_neg hf.ne'] at h
  by_cases hz : cellSampOf sampRate reqFreq = 0
  · rw [if_pos hz] at h
    exact absurd h (by simp)
  · rw [if_neg hz] at h
    have hr : (sampRate : ℚ) ≠ 0 := by
      intro h0
      apply hz
      unfold cellSampOf
      rw [h0, mul_zero, pyIntQ_zero]
    have hcSQ : ((cellSampOf sampRate reqFreq : ℤ) : ℚ) ≠ 0 := Int.cast_ne_zero.2 hz
    have hnum : numWavesOf sampRate reqFreq = cellQuartWavesOf reqFreq := by
      unfold numWavesOf actFreqOf
      have harg : 4 * ((cellQuartWavesOf reqFreq : ℚ) / cellSampOf sampRate reqFreq / 4 * sampRate)
          * cellSampOf sampRate reqFreq / sampRate = (cellQuartWavesOf reqFreq : ℚ) := by
        field_simp
        ring
      rw [harg, pyRoundQ_intCast]
    have hg : g.countWaves = cellQuartWavesOf reqFreq := by
      rw [← Except.ok.inj h, hnum]
    have hk0 : 0 ≤ pyIntQ ((reqFreq / 2 - 1) / 4) := by
      apply pyIntQ_nonneg_of_neg_one_lt
      have : (0 : ℚ) < reqFreq / 2 := by positivity
      linarith
    have hcq : cellQuartWavesOf reqFreq = 4 * pyIntQ ((reqFreq / 2 - 1) / 4) + 1 := rfl
    refine ⟨by rw [hg, hcq], ⟨pyIntQ ((reqFreq / 2 - 1) / 4), hk0, by rw [hg, hcq]⟩, ?_, ?_⟩
    · exact ⟨2 * pyIntQ ((reqFreq / 2 - 1) / 4), by rw [hg, hcq]; ring⟩
    · rw [hg]
      exact cellQuartWavesOf_pos hf

/-- Concrete evaluation of the planner at the default configuration
(sample rate 44100, requested frequency 100): exactly the default
`cellSamples = 5402`, `countWaves = 49` hard-coded in measResp.py. -/
theorem fillInDetails_default : fillInDetails 44100 100 = .ok ⟨5402, 49, 100⟩ := by
  have h1 : cellQuartWavesOf 100 = 49 := by
    norm_num [cellQuartWavesOf, pyIntQ]
  have h2 : cellSampOf 44100 100 = 5402 := by
    rw [cellSampOf, h1]
    norm_num [pyIntQ]
  have h3 : actFreqOf 44100 100 = 540225 / 5402 := by
    rw [actFreqOf, h1, h2]
    norm_num
  have h4 : numWavesOf 44100 100 = 49 := by
    rw [numWavesOf, h3, h2]
    norm_num [pyRoundQ]
  have h5 : (pyRoundQ (actFreqOf 44100 100 * 100) : ℚ) / 100 = 100 := by
    rw [h3]
    norm_num [pyRoundQ]
  rw [fillInDetails, if_neg (by norm_num), if_neg (by rw [h2]; norm_num), h2, h4, h5]

theorem c9_planner_wave_count_witness :
    (0 : ℚ) < 100 ∧ fillInDetails 44100 100 = .ok ⟨5402, 49, 100⟩ ∧
    ((⟨5402, 49, 100⟩ : Geom).countWaves = 4 * pyIntQ (((100 : ℚ) / 2 - 1) / 4) + 1 ∧
      (∃ k : ℤ, 0 ≤ k ∧ (⟨5402, 49, 100⟩ : Geom).countWaves = 4 * k + 1) ∧
      Odd (⟨5402, 49, 100⟩ : Geom).countWaves ∧ 1 ≤ (⟨5402, 49, 100⟩ : Geom).countWaves) :=
  ⟨by norm_num, fillInDetails_default,
    c9_planner_wave_count 44100 100 ⟨5402, 49, 100⟩ (by norm_num) fillInDetails_default⟩

/-- C7 counterexample: at `requestedFrequency = 1` (with the default
sample rate 44100) the claim's floor-based `cellQuartWaves`
`4 * ⌊(f/2 - 1)/4⌋ + 1 = -3` is ≤ 0, so the claim asserts the planner
fails with a `ConfigurationError`; but the code (which truncates toward
zero with `int()`, giving `cellQuartWaves = 1`) succeeds and returns the
geometry `cellSamples = 11025`, `countWaves = 1`. -/
theorem c7_counterexample :
    4 * ⌊(((1 : ℚ) / 2 - 1) / 4)⌋ + 1 ≤ 0 ∧
    fillInDetails 44100 1 = .ok ⟨11025, 1, 1⟩ := by
  constructor
  · norm_num
  · have h1 : cellQuartWavesOf 1 = 1 := by
      norm_num [cellQuartWavesOf, pyIntQ]
    have h2 : cellSampOf 44100 1 = 11025 := by
      rw [cellSampOf, h1]
      norm_num [pyIntQ]
    have h3 : actFreqOf 44100 1 = 1 := by
      rw [actFreqOf, h1, h2]
      norm_num
    have h4 : numWavesOf 44100 1 = 1 := by
      rw [numWavesOf, h3, h2]
      norm_num [pyRoundQ]
    have h5 : (pyRoundQ (actFreqOf 44100 1 * 100) : ℚ) / 100 = 1 := by
      rw [h3]
      norm_num [pyRoundQ]
    rw [fillInDetails, if_neg (by norm_num), if_neg (by rw [h2]; norm_num), h2, h4, h5]

/-- C7 (amended): the planner has no rejection path.  Because `int()`
truncates toward zero, `cellQuartWaves = 4 * int((f/2 - 1)/4) + 1 ≥ 1`
for every positive `requestedFrequency`, so the degenerate-geometry
condition never arises for positive frequencies; the code contains no
`ConfigurationError`, and its only failure mode is a
`ZeroDivisionError` (raised when `reqFreq = 0` or the derived
`cellSamples` is 0). -/
theorem c7_amended (sampRate : ℕ) (reqFreq : ℚ) (hf : 0 < reqFreq) :
    1 ≤ cellQuartWavesOf reqFreq ∧
    ∀ e, fillInDetails sampRate reqFreq = .error e → e = .zeroDivision := by
  refine ⟨cellQuartWavesOf_pos hf, ?_⟩
  intro e he
  unfold fillInDetails at he
  rw [if_neg hf.ne'] at he
  by_cases hz : cellSampOf sampRate reqFreq = 0
  · rw [if_pos hz] at he
    exact (Except.error.inj he).symm
  · rw [if_neg hz] at he
    exact absurd he (by simp)

theorem c7_amended_witness :
    (0 : ℚ) < 100 ∧
    (1 ≤ cellQuartWavesOf 100 ∧
      ∀ e, fillInDetails 44100 100 = .error e → e = .zeroDivision) :=
  ⟨by norm_num, c7_amended 44100 100 (by norm_num)⟩

/-- One measurement record ("cell") of a Measurement Document, with the
fields that measStim.py and measResp.py read out of the JSON tree:
drive amplitudes, sample rate, the output and input channel-balance
factors, the leading silence, and the resolved burst geometry
(`cellSamples`, `countWaves`).  Amplitudes are integers (the JSON
defaults are integers and they are used as exact scale factors);
balance factors are reals. -/
structure Meas where
  amplL1 : ℤ
  amplR1 : ℤ
  amplL2 : ℤ
  amplR2 : ℤ
  sampleRate : ℕ
  imbalanceOut : ℝ
  imbalanceIn : ℝ
  startDelay : ℕ
  cellSamples : ℕ
  countWaves : ℕ

/-- Python `round()` applied to a real value: round to nearest, ties to
even (used for the 16-bit sample quantization in measStim.py). -/
noncomputable def pyRoundR (x : ℝ) : ℤ :=
  if x - ⌊x⌋ < 1 / 2 then ⌊x⌋
  else if 1 / 2 < x - ⌊x⌋ then ⌊x⌋ + 1
  else if 2 ∣ ⌊x⌋ then ⌊x⌋ else ⌊x⌋ + 1

/-- measStim.py line 96 (= measResp.py line 74):
`incr = 2.0 * math.pi * countWave / 4.0 / cellSamp`. -/
noncomputable def incr (S K : ℕ) : ℝ := 2 * Real.pi * K / 4 / S

/-- The reference waveform table entry, measStim.py line 105
(`theCycle`) and measResp.py line 77 (`refVec`):
`math.sin ((n + 0.5) * incr)`. -/
noncomputable def refVec (S K : ℕ) (n : ℕ) : ℝ :=
  Real.sin (((n : ℝ) + 1 / 2) * incr S K)

/-- One drive window of `burstSamp = 4 * cellSamp` frames,
measStim.py lines 110-114 and 129-133: per sample
`(round (ampL * theCycle [n]), round (ampR * theCycle [n] * imbal))`. -/
noncomputable def driveWindow (ampL ampR : ℤ) (imbal : ℝ) (S K : ℕ) : List (ℤ × ℤ) :=
  (List.range (4 * S)).map fun (n : ℕ) =>
    (pyRoundR ((ampL : ℝ) * refVec S K n), pyRoundR ((ampR : ℝ) * refVec S K n * imbal))

/-- One silent window of `burstSamp` zero frames, measStim.py
lines 120-123. -/
def silentWindow (S : ℕ) : List (ℤ × ℤ) := List.replicate (4 * S) ((0 : ℤ), (0 : ℤ))

/-- `for n in range (2): waveFile.writeframes (aCycle)` — each window
buffer is written exactly twice (measStim.py lines 115-116, 124-125,
134-135). -/
def writeTwice (l : List (ℤ × ℤ)) : List (ℤ × ℤ) := (List.replicate 2 l).join

/-- The frame stream measStim.py emits for one cell (lines 85-136):
`startDelay` silent frames, the drive-A buffer twice, the silent buffer
twice, the drive-B buffer twice. -/
noncomputable def stimCell (m : Meas) : List (ℤ × ℤ) :=
  List.replicate m.startDelay ((0 : ℤ), (0 : ℤ))
  ++ writeTwice (driveWindow m.amplL1 m.amplR1 m.imbalanceOut m.cellSamples m.countWaves)
  ++ writeTwice (silentWindow m.cellSamples)
  ++ writeTwice (driveWindow m.amplL2 m.amplR2 m.imbalanceOut m.cellSamples m.countWaves)

/-- The whole stimulus file: the cells' frame streams in document
order (measStim.py lines 84-136). -/
noncomputable def stimDoc (cells : List Meas) : List (ℤ × ℤ) :=
  (cells.map stimCell).join

/-- The analyzer's expected frame count, measResp.py lines 54-57:
`expectFrames += (theMeas ['cellSamples'] * 3 * 8) + theMeas ['startDelay']`. -/
def expectFrames (cells : List Meas) : ℕ :=
  (cells.map fun c => c.cellSamples * 3 * 8 + c.startDelay).sum

/-- C2: for every cell, the synthesizer emits, in order: `startDelay`
frames of `(0,0)`; a drive-A window built from the reference table
`ref[n] = sin((n + 0.5) * 2π * countWaves / (4 * cellSamples))` for
`n ∈ [0, 4*cellSamples)`, scaled per sample to
`(round(amplL1 * ref[n]), round(amplR1 * ref[n] * imbalanceOut))` and
written exactly twice; then `2 * 4*cellSamples` frames of `(0,0)`; then
a drive-B window built the same way from `amplL2` and
`amplR2 * imbalanceOut`, written exactly twice. -/
theorem c2_stimulus_structure (m : Meas) :
    stimCell m =
      List.replicate m.startDelay ((0 : ℤ), (0 : ℤ))
      ++ ((List.range (4 * m.cellSamples)).map fun (n : ℕ) =>
            (pyRoundR ((m.amplL1 : ℝ) *
                Real.sin (((n : ℝ) + 1 / 2) * (2 * Real.pi * m.countWaves) / (4 * m.cellSamples))),
             pyRoundR ((m.amplR1 : ℝ) *
                Real.sin (((n : ℝ) + 1 / 2) * (2 * Real.pi * m.countWaves) / (4 * m.cellSamples))
                * m.imbalanceOut)))
      ++ ((List.range (4 * m.cellSamples)).map fun (n : ℕ) =>
            (pyRoundR ((m.amplL1 : ℝ) *
                Real.sin (((n : ℝ) + 1 / 2) * (2 * Real.pi * m.countWaves) / (4 * m.cellSamples))),
             pyRoundR ((m.amplR1 : ℝ) *
                Real.sin (((n : ℝ) + 1 / 2) * (2 * Real.pi * m.countWaves) / (4 * m.cellSamples))
                * m.imbalanceOut)))
      ++ List.replicate (2 * (4 * m.cellSamples)) ((0 : ℤ), (0 : ℤ))
      ++ ((List.range (4 * m.cellSamples)).map fun (n : ℕ) =>
            (pyRoundR ((m.amplL2 : ℝ) *
                Real.sin (((n : ℝ) + 1 / 2) * (2 * Real.pi * m.countWaves) / (4 * m.cellSamples))),
             pyRoundR ((m.amplR2 : ℝ) *
                Real.sin (((n : ℝ) + 1 / 2) * (2 * Real.pi * m.countWaves) / (4 * m.cellSamples))
                * m.imbalanceOut)))
      ++ ((List.range (4 * m.cellSamples)).map fun (n : ℕ) =>
            (pyRoundR ((m.amplL2 : ℝ) *
                Real.sin (((n : ℝ) + 1 / 2) * (2 * Real.pi * m.countWaves) / (4 * m.cellSamples))),
             pyRoundR ((m.amplR2 : ℝ) *
                Real.sin (((n : ℝ) + 1 / 2) * (2 * Real.pi * m.countWaves) / (4 * m.cellSamples))
                * m.imbalanceOut))) := by
  have harg : ∀ n : ℕ, refVec m.cellSamples m.countWaves n
      = Real.sin (((n : ℝ) + 1 / 2) * (2 * Real.pi * m.countWaves) / (4 * m.cellSamples)) := by
    intro n
    rw [refVec, incr, div_div, ← mul_div_assoc]
  have hrep : List.replicate (2 * (4 * m.cellSamples)) ((0 : ℤ), (0 : ℤ))
      = List.replicate (4 * m.cellSamples) ((0 : ℤ), (0 : ℤ))
        ++ List.replicate (4 * m.cellSamples) ((0 : ℤ), (0 : ℤ)) := by
    rw [← List.replicate_add]
    congr 1
    ring
  simp only [stimCell, writeTwice, silentWindow, driveWindow, harg, hrep,
    List.replicate_succ, List.replicate_zero, List.join_cons, List.join_nil,
    List.append_nil, List.append_assoc]

theorem stimCell_length (m : Meas) :
    (stimCell m).length = m.startDelay + 24 * m.cellSamples := by
  simp only [stimCell, writeTwice, silentWindow, driveWindow,
    List.length_append, List.length_join, List.length_replicate, List.map_replicate,
    List.length_map, List.length_range, List.sum_replicate, smul_eq_mul]
  ring

/-- C10: the total number of frames the synthesizer writes equals the
sum over cells of `startDelay + 24 * cellSamples`, and this is exactly
the frame count the response analyzer computes as its expectation
(`cellSamples * 3 * 8 + startDelay` per cell) — so a capture of a
freshly synthesized stimulus passes the analyzer's length check with
zero frames to spare. -/
theorem stimDoc_cons (c : Meas) (cs : List Meas) :
    stimDoc (c :: cs) = stimCell c ++ stimDoc cs := by
  simp [stimDoc]

theorem expectFrames_cons (c : Meas) (cs : List Meas) :
    expectFrames (c :: cs) = c.cellSamples * 3 * 8 + c.startDelay + expectFrames cs := by
  simp [expectFrames]

theorem c10_synth_length_matches_expectation (cells : List Meas) :
    (stimDoc cells).length = expectFrames cells ∧
    expectFrames cells = (cells.map fun c => c.startDelay + 24 * c.cellSamples).sum := by
  constructor
  · induction cells with
    | nil => simp [stimDoc, expectFrames]
    | cons c cs ih =>
      rw [stimDoc_cons, List.length_append, stimCell_length, ih, expectFrames_cons]
      omega
  · induction cells with
    | nil => simp [expectFrames]
    | cons c cs ih =>
      rw [expectFrames_cons, List.map_cons, List.sum_cons, ih]
      omega

/-- The two correlation sums of the demodulator, measResp.py lines
82-85 / 88-91: read `burstSamp = 4 * cellSamp` frames starting at
`start` and correlate one channel against `refVec`:
`sum ([x * y for (x,y) in zip (refVec, sinVec)])`. -/
noncomputable def corrSum (S K : ℕ) (samp : ℤ → ℝ) (start : ℤ) : ℝ :=
  ∑ n ∈ Finset.range (4 * S), refVec S K n * samp (start + n)

/-- One demodulated window ending at `datum` (measResp.py lines 80-100,
repeated at 105-126 and 131-152): the sine-aligned read starts at
`datum - cellSamp`, the cosine-aligned read at `datum`; then
`imagPart *= -2 / burstSamp / imbal` and `realPart *= 2 / burstSamp
/ imbal` on the left channel, `imagPart *= -2 / burstSamp` and
`realPart *= 2 / burstSamp` on the right.  The result is the
`(left, right)` phasor pair stored into the document. -/
noncomputable def demodWindow (cap : ℤ → ℝ × ℝ) (m : Meas) (datum : ℤ) : ℂ × ℂ :=
  (⟨corrSum m.cellSamples m.countWaves (fun p => (cap p).1) datum
      * (2 / ((4 * m.cellSamples : ℕ) : ℝ) / m.imbalanceIn),
    corrSum m.cellSamples m.countWaves (fun p => (cap p).1) (datum - m.cellSamples)
      * (-2 / ((4 * m.cellSamples : ℕ) : ℝ) / m.imbalanceIn)⟩,
   ⟨corrSum m.cellSamples m.countWaves (fun p => (cap p).2) datum
      * (2 / ((4 * m.cellSamples : ℕ) : ℝ)),
    corrSum m.cellSamples m.countWaves (fun p => (cap p).2) (datum - m.cellSamples)
      * (-2 / ((4 * m.cellSamples : ℕ) : ℝ))⟩)

/-- The cursor positions of the whole analysis loop (measResp.py lines
66-162).  The cursor `datum` starts at 0; per cell it advances by
`startDelay + burstSamp` before the first-drive reads, by
`2 * burstSamp` before the silent-window reads, by `2 * burstSamp`
before the second-drive reads, and by `burstSamp` afterward.  Each
entry is `(sine read position, cosine read position, cellSamples)` of
one window, in temporal order. -/
def docWindows : List Meas → ℤ → List (ℤ × ℤ × ℕ)
  | [], _ => []
  | c :: rest, datum =>
    (datum + c.startDelay + 4 * (c.cellSamples : ℤ) - c.cellSamples,
     datum + c.startDelay + 4 * (c.cellSamples : ℤ), c.cellSamples)
    :: (datum + c.startDelay + 4 * (c.cellSamples : ℤ) + 2 * (4 * (c.cellSamples : ℤ))
          - c.cellSamples,
        datum + c.startDelay + 4 * (c.cellSamples : ℤ) + 2 * (4 * (c.cellSamples : ℤ)),
        c.cellSamples)
    :: (datum + c.startDelay + 4 * (c.cellSamples : ℤ) + 2 * (4 * (c.cellSamples : ℤ))
          + 2 * (4 * (c.cellSamples : ℤ)) - c.cellSamples,
        datum + c.startDelay + 4 * (c.cellSamples : ℤ) + 2 * (4 * (c.cellSamples : ℤ))
          + 2 * (4 * (c.cellSamples : ℤ)),
        c.cellSamples)
    :: docWindows rest (datum + c.startDelay + 4 * (c.cellSamples : ℤ)
          + 2 * (4 * (c.cellSamples : ℤ)) + 2 * (4 * (c.cellSamples : ℤ))
          + 4 * (c.cellSamples : ℤ))

/-- The three demodulated windows of one cell plus the advanced cursor,
following the same per-cell schedule as `docWindows`. -/
noncomputable def demodCell (cap : ℤ → ℝ × ℝ) (m : Meas) (datum : ℤ) :
    (ℂ × ℂ) × (ℂ × ℂ) × (ℂ × ℂ) × ℤ :=
  (demodWindow cap m (datum + m.startDelay + 4 * (m.cellSamples : ℤ)),
   demodWindow cap m (datum + m.startDelay + 4 * (m.cellSamples : ℤ)
      + 2 * (4 * (m.cellSamples : ℤ))),
   demodWindow cap m (datum + m.startDelay + 4 * (m.cellSamples : ℤ)
      + 2 * (4 * (m.cellSamples : ℤ)) + 2 * (4 * (m.cellSamples : ℤ))),
   datum + m.startDelay + 4 * (m.cellSamples : ℤ) + 2 * (4 * (m.cellSamples : ℤ))
      + 2 * (4 * (m.cellSamples : ℤ)) + 4 * (m.cellSamples : ℤ))

/-- Analysis-level failures of measResp.py: the explicit
`quit ()` on a short capture (the spec's `InsufficientDataError`), the
`ZeroDivisionError` a complex ratio with zero denominator raises (the
spec's `DegenerateMeasurementError`), and the `AttributeError` raised
when a dict-shaped tree is iterated (see `respCellsOf`). -/
inductive RunError where
  | insufficientData
  | degenerate
  | attributeError
deriving DecidableEq

/-- The three window phasor pairs `theMeas.update` stores back into one
cell of the document. -/
structure CellResult where
  firstBurst : ℂ × ℂ
  silentBurst : ℂ × ℂ
  secondBurst : ℂ × ℂ

/-- One iteration of the analysis loop: demodulate the cell's three
windows, then evaluate the ratio prints of measResp.py lines 158-159:
`firstL/firstR`, `secondL/secondR`, `secondL/firstL`, `secondR/firstR`
in left-to-right order.  Python raises `ZeroDivisionError` at the first
ratio whose denominator is the zero phasor, so the checks fire in the
order `firstR`, `secondR`, `firstL`. -/
noncomputable def cellStep (cap : ℤ → ℝ × ℝ) (m : Meas) (datum : ℤ) :
    Except RunError ((Meas × CellResult) × ℤ) :=
  let r := demodCell cap m datum
  if r.1.2 = 0 then .error .degenerate
  else if r.2.2.1.2 = 0 then .error .degenerate
  else if r.1.1 = 0 then .error .degenerate
  else .ok ((m, ⟨r.1, r.2.1, r.2.2.1⟩), r.2.2.2)

/-- The analysis loop over the measurement cells (measResp.py lines
66-162), threading the cursor; an exception in any cell aborts the
whole loop. -/
noncomputable def runCells (cap : ℤ → ℝ × ℝ) :
    List Meas → ℤ → Except RunError (List (Meas × CellResult))
  | [], _ => .ok []
  | m :: rest, datum =>
    match cellStep cap m datum with
    | .error e => .error e
    | .ok res =>
      match runCells cap rest res.2 with
      | .error e => .error e
      | .ok others => .ok (res.1 :: others)

/-- The analysis run of measResp.py after the setup is loaded: the
length guard of lines 54-61 (`if actualFrames < expectFrames: quit()`)
followed by the per-cell loop.  The guard quits before any
demodulation; the final JSON write (lines 164-168) happens only after
the loop completes. -/
noncomputable def respRun (cells : List Meas) (cap : ℤ → ℝ × ℝ) (actualFrames : ℕ) :
    Except RunError (List (Meas × CellResult)) :=
  if actualFrames < expectFrames cells then .error .insufficientData
  else runCells cap cells 0

/-- The on-disk document after a run: the single JSON write sits after
the analysis loop, so a failed run leaves the prior document. -/
def diskAfter (prior : List (Meas × CellResult))
    (run : Except RunError (List (Meas × CellResult))) : List (Meas × CellResult) :=
  match run with
  | .error _ => prior
  | .ok d => d

/-- The expectation the claim C1 states, from the spec's words: sum
over cells of `startDelay + 8 * cellSamples`. -/
def claimExpectFrames (cells : List Meas) : ℕ :=
  (cells.map fun c => c.startDelay + 8 * c.cellSamples).sum

theorem expectFrames_eq (cells : List Meas) :
    expectFrames cells = (cells.map fun c => c.startDelay + 24 * c.cellSamples).sum := by
  induction cells with
  | nil => simp [expectFrames]
  | cons c cs ih =>
    rw [expectFrames_cons, List.map_cons, List.sum_cons, ih]
    omega

theorem cellStep_error_eq (cap : ℤ → ℝ × ℝ) (m : Meas) (datum : ℤ) (e : RunError)
    (h : cellStep cap m datum = .error e) : e = .degenerate := by
  rw [cellStep] at h
  split_ifs at h <;> simp_all

theorem runCells_cons_error (cap : ℤ → ℝ × ℝ) (m : Meas) (rest : List Meas)
    (datum : ℤ) (e : RunError) (h : cellStep cap m datum = .error e) :
    runCells cap (m :: rest) datum = .error e := by
  rw [runCells, h]

theorem runCells_cons_ok (cap : ℤ → ℝ × ℝ) (m : Meas) (rest : List Meas)
    (datum : ℤ) (res : (Meas × CellResult) × ℤ) (h : cellStep cap m datum = .ok res) :
    runCells cap (m :: rest) datum =
      match runCells cap rest res.2 with
      | .error e => .error e
      | .ok others => .ok (res.1 :: others) := by
  rw [runCells, h]

theorem runCells_ne_insufficient (cap : ℤ → ℝ × ℝ) (cells : List Meas) (datum : ℤ) :
    runCells cap cells datum ≠ .error .insufficientData := by
  induction cells generalizing datum with
  | nil => simp [runCells]
  | cons m rest ih =>
    cases hstep : cellStep cap m datum with
    | error e =>
      rw [runCells_cons_error cap m rest datum e hstep]
      have := cellStep_error_eq cap m datum e hstep
      simp [this]
    | ok res =>
      rw [runCells_cons_ok cap m rest datum res hstep]
      cases hrest : runCells cap rest res.2 with
      | error e =>
        intro hcontra
        have he : e = RunError.insufficientData := by simpa using hcontra
        exact ih res.2 (by rw [hrest, he])
      | ok others => simp

/-- C1 counterexample: for a document with one cell of
`cellSamples = 1` and `startDelay = 0`, the claim's expectation
`startDelay + 8 * cellSamples` is 8, so by the claim a capture of
exactly 8 frames succeeds; but the code's expectation
(`cellSamples * 3 * 8 + startDelay`) is 24, so the run fails with
`InsufficientDataError` at 8 frames — the claimed equivalence is
false. -/
theorem c1_counterexample :
    ¬ ((respRun [⟨28000, 28000, 28000, 28000, 44100, 1, 1, 0, 1, 49⟩]
          (fun _ => ((0 : ℝ), (0 : ℝ))) 8 = .error .insufficientData)
        ↔ 8 < claimExpectFrames [⟨28000, 28000, 28000, 28000, 44100, 1, 1, 0, 1, 49⟩]) := by
  intro h
  have hfail : respRun [⟨28000, 28000, 28000, 28000, 44100, 1, 1, 0, 1, 49⟩]
      (fun _ => ((0 : ℝ), (0 : ℝ))) 8 = .error .insufficientData := by
    rw [respRun, if_pos (by norm_num [expectFrames])]
  have : ¬ (8 < claimExpectFrames [⟨28000, 28000, 28000, 28000, 44100, 1, 1, 0, 1, 49⟩]) := by
    norm_num [claimExpectFrames]
  exact this (h.mp hfail)

/-- C1 (amended): for every measurement document, the demodulation run
fails with `InsufficientDataError` — performing no demodulation at all
(the outcome is independent of the capture contents) — exactly when the
captured audio container has fewer frames than the sum over all cells
of `startDelay + 24 * cellSamples`; in particular a capture exactly one
frame shorter than that expectation fails, and a capture of exactly
that length passes the length check. -/
theorem c1_insufficient_iff (cells : List Meas) (cap : ℤ → ℝ × ℝ) (n : ℕ) :
    respRun cells cap n = .error .insufficientData
      ↔ n < (cells.map fun c => c.startDelay + 24 * c.cellSamples).sum := by
  rw [respRun, ← expectFrames_eq]
  by_cases h : n < expectFrames cells
  · simp [if_pos h, h]
  · rw [if_neg h]
    simp only [h, iff_false]
    exact runCells_ne_insufficient cap cells 0

/-- C3: the cell sequencer starts its cursor at 0 and, per cell,
advances it by `startDelay + burstSamples` before the first-drive
reads, by `2 * burstSamples` before the silent-window reads, by
`2 * burstSamples` before the second-drive reads, and by
`burstSamples` afterward; consequently for a two-cell document the
second cell's first-drive window ends at exactly
`6 * B1 + D1 + D2 + B2` (with `B = 4 * cellSamples`), and every
window's sine-aligned read starts exactly `cellSamples` before its
cosine-aligned read. -/
theorem c3_cursor_positions (c1 c2 : Meas) :
    ((docWindows [c1, c2] 0)[3]? = some
      (6 * (4 * (c1.cellSamples : ℤ)) + c1.startDelay + c2.startDelay
          + 4 * (c2.cellSamples : ℤ) - c2.cellSamples,
       6 * (4 * (c1.cellSamples : ℤ)) + c1.startDelay + c2.startDelay
          + 4 * (c2.cellSamples : ℤ),
       c2.cellSamples)) ∧
    ∀ (cells : List Meas) (d : ℤ) (w : ℤ × ℤ × ℕ), w ∈ docWindows cells d →
      w.1 = w.2.1 - (w.2.2 : ℤ) := by
  constructor
  · simp only [docWindows]
    rw [List.getElem?_cons_succ, List.getElem?_cons_succ, List.getElem?_cons_succ,
      List.getElem?_cons_zero]
    refine congrArg some ?_
    refine Prod.ext ?_ (Prod.ext ?_ rfl) <;> push_cast <;> ring
  · intro cells
    induction cells with
    | nil => simp [docWindows]
    | cons c rest ih =>
      intro d w hw
      rw [docWindows] at hw
      simp only [List.mem_cons] at hw
      rcases hw with h | h | h | h
      · rw [h]
      · rw [h]
      · rw [h]
      · exact ih _ w h

/-- C4: for every demodulated window of length `W = burstSamples
= 4 * cellSamples`, the stored phasor is formed as
`imag = imagRaw * (-2/W)` and `real = realRaw * (2/W)`, with both parts
of the left channel additionally divided by `imbalanceIn`, while the
right channel is never divided by `imbalanceIn` (its phasor does not
depend on `imbalanceIn` at all). -/
theorem c4_normalization (cap : ℤ → ℝ × ℝ) (m : Meas) (datum : ℤ) :
    ((demodWindow cap m datum).1.re
        = corrSum m.cellSamples m.countWaves (fun p => (cap p).1) datum
          * (2 / ((4 * m.cellSamples : ℕ) : ℝ)) / m.imbalanceIn ∧
      (demodWindow cap m datum).1.im
        = corrSum m.cellSamples m.countWaves (fun p => (cap p).1) (datum - m.cellSamples)
          * (-2 / ((4 * m.cellSamples : ℕ) : ℝ)) / m.imbalanceIn) ∧
    ((demodWindow cap m datum).2.re
        = corrSum m.cellSamples m.countWaves (fun p => (cap p).2) datum
          * (2 / ((4 * m.cellSamples : ℕ) : ℝ)) ∧
      (demodWindow cap m datum).2.im
        = corrSum m.cellSamples m.countWaves (fun p => (cap p).2) (datum - m.cellSamples)
          * (-2 / ((4 * m.cellSamples : ℕ) : ℝ))) ∧
    (∀ x y : ℝ, (demodWindow cap { m with imbalanceIn := x } datum).2
        = (demodWindow cap { m with imbalanceIn := y } datum).2) := by
  refine ⟨⟨?_, ?_⟩, ⟨?_, ?_⟩, fun x y => ?_⟩ <;>
    simp only [demodWindow] <;> try ring

/-- C8: every analysis-time failure aborts the run before the result
document is written, leaving the prior on-disk document unchanged:
(i) a failed run leaves the prior document as it was; (ii) a capture
shorter than expected fails with `InsufficientDataError`; (iii) a cell
one of whose ratio denominators (`firstR`, `secondR` or `firstL`) is a
phasor of magnitude 0 fails with `DegenerateMeasurementError` rather
than producing infinity; (iv) a failing cell aborts the whole loop with
its error. -/
theorem c8_failures_abort_without_write (prior : List (Meas × CellResult))
    (cells : List Meas) (cap : ℤ → ℝ × ℝ) (n : ℕ) :
    (∀ e, respRun cells cap n = .error e → diskAfter prior (respRun cells cap n) = prior) ∧
    (n < expectFrames cells → respRun cells cap n = .error .insufficientData) ∧
    (∀ (m : Meas) (datum : ℤ),
      (Complex.abs (demodCell cap m datum).1.2 = 0 ∨
        Complex.abs (demodCell cap m datum).2.2.1.2 = 0 ∨
        Complex.abs (demodCell cap m datum).1.1 = 0) →
      cellStep cap m datum = .error .degenerate) ∧
    (∀ (m : Meas) (rest : List Meas) (datum : ℤ) (e : RunError),
      cellStep cap m datum = .error e → runCells cap (m :: rest) datum = .error e) := by
  refine ⟨?_, ?_, ?_, ?_⟩
  · intro e he
    rw [he, diskAfter]
  · intro h
    rw [respRun, if_pos h]
  · intro m datum hzero
    rw [Complex.abs.eq_zero, Complex.abs.eq_zero, Complex.abs.eq_zero] at hzero
    rw [cellStep]
    by_cases h1 : (demodCell cap m datum).1.2 = 0
    · rw [if_pos h1]
    · rw [if_neg h1]
      by_cases h2 : (demodCell cap m datum).2.2.1.2 = 0
      · rw [if_pos h2]
      · rw [if_neg h2]
        rw [if_pos (by tauto)]
  · intro m rest datum e he
    exact runCells_cons_error cap m rest datum e he

theorem c8_failures_abort_without_write_witness :
    0 < expectFrames [⟨28000, 28000, 28000, 28000, 44100, 1, 1, 0, 1, 49⟩] ∧
    respRun [⟨28000, 28000, 28000, 28000, 44100, 1, 1, 0, 1, 49⟩]
      (fun _ => ((0 : ℝ), (0 : ℝ))) 0 = .error .insufficientData ∧
    diskAfter [] (respRun [⟨28000, 28000, 28000, 28000, 44100, 1, 1, 0, 1, 49⟩]
      (fun _ => ((0 : ℝ), (0 : ℝ))) 0) = [] := by
  have h0 : 0 < expectFrames [⟨28000, 28000, 28000, 28000, 44100, 1, 1, 0, 1, 49⟩] := by
    norm_num [expectFrames]
  have hrun := (c8_failures_abort_without_write []
    [⟨28000, 28000, 28000, 28000, 44100, 1, 1, 0, 1, 49⟩]
    (fun _ => ((0 : ℝ), (0 : ℝ))) 0).2.1 h0
  exact ⟨h0, hrun,
    (c8_failures_abort_without_write [] [⟨28000, 28000, 28000, 28000, 44100, 1, 1, 0, 1, 49⟩]
      (fun _ => ((0 : ℝ), (0 : ℝ))) 0).1 _ hrun⟩

/-- A loaded (or built-in default) measurement document: either a
single JSON object — the legacy shape, and the shape of both scripts'
built-in default tree `theTree = {}` after `initializeDetails` — or a
JSON array of objects. -/
inductive JsonTree where
  | single : Meas → JsonTree
  | many : List Meas → JsonTree

/-- measStim.py lines 62-63 normalize the legacy single-object shape
before use: `if isinstance (theTree, dict): theTree = [theTree]`. -/
def stimCellsOf : JsonTree → List Meas
  | .single c => [c]
  | .many cs => cs

/-- measResp.py performs no such normalization.  Its loop
`for theMeas in theTree:` (line 55) iterates a dict-shaped tree over
its key strings, and `initializeDetails (theMeas)` (line 56) then calls
`.setdefault` on a string, raising
`AttributeError: str object has no attribute setdefault` on the first
key (every measurement object has at least one key, and the default
tree has five).  An array-shaped tree iterates over its cells as
intended. -/
def respCellsOf : JsonTree → Except RunError (List Meas)
  | .single _ => .error .attributeError
  | .many cs => .ok cs

/-- The measResp.py analysis run started from the loaded (or defaulted)
tree: shape handling, then the length guard, then the cell loop. -/
noncomputable def respRunTree (t : JsonTree) (cap : ℤ → ℝ × ℝ) (actualFrames : ℕ) :
    Except RunError (List (Meas × CellResult)) :=
  match respCellsOf t with
  | .error e => .error e
  | .ok cells => respRun cells cap actualFrames

/-- The built-in default tree of measResp.py (lines 14-22): a single
dict with `sampleRate = 44100`, `cellSamples = 5402`,
`countWaves = 49`, `imbalanceIn = 0.99712`, `startDelay = 4410`.  (The
amplitude and `imbalanceOut` fields are not among measResp.py's
defaults and are never read by the analyzer; they are 0 resp. 1
here.) -/
noncomputable def respDefaultTree : JsonTree :=
  .single ⟨0, 0, 0, 0, 44100, 1, 0.99712, 4410, 5402, 49⟩

/-- C6 (code bug): when the configuration file is absent or corrupt,
both scripts fall back to their built-in default tree, which is
dict-shaped.  measStim.py normalizes the shape and completes its run,
but measResp.py iterates the dict's key strings and dies with an
`AttributeError` — before the length check, before any demodulation,
and before the final document write — for every capture; so for
measResp.py a missing configuration file is fatal, contrary to the
claim. -/
theorem c6_resp_crashes_on_default_tree :
    (∀ (cap : ℤ → ℝ × ℝ) (n : ℕ),
      respRunTree respDefaultTree cap n = .error .attributeError) ∧
    (∀ c : Meas, stimCellsOf (.single c) = [c]) :=
  ⟨fun _ _ => rfl, fun _ => rfl⟩

theorem abs_pyRoundR_sub_le (x : ℝ) : |((pyRoundR x : ℤ) : ℝ) - x| ≤ 1 / 2 := by
  have h0 : (0 : ℝ) ≤ x - ⌊x⌋ := sub_nonneg.2 (Int.floor_le x)
  have h1 : x - ⌊x⌋ < 1 := by
    have := Int.lt_floor_add_one x
    linarith
  rw [pyRoundR]
  split_ifs with hlt hgt hev
  · rw [abs_le]
    constructor <;> linarith
  · rw [abs_le]
    push_cast
    constructor <;> linarith
  · have htie : x - ⌊x⌋ = 1 / 2 := le_antisymm (not_lt.1 hgt) (not_lt.1 hlt)
    rw [abs_le]
    constructor <;> linarith
  · have htie : x - ⌊x⌋ = 1 / 2 := le_antisymm (not_lt.1 hgt) (not_lt.1 hlt)
    rw [abs_le]
    push_cast
    constructor <;> linarith

theorem sum_exp_arith (W : ℕ) (α δ : ℝ)
    (h1 : Complex.exp ((δ : ℂ) * Complex.I) ≠ 1)
    (h2 : Complex.exp ((W : ℂ) * ((δ : ℂ) * Complex.I)) = 1) :
    ∑ n ∈ Finset.range W, Complex.exp (((α + n * δ : ℝ) : ℂ) * Complex.I) = 0 := by
  have hterm : ∀ n : ℕ, Complex.exp (((α + n * δ : ℝ) : ℂ) * Complex.I)
      = Complex.exp ((α : ℂ) * Complex.I) * Complex.exp ((δ : ℂ) * Complex.I) ^ n := by
    intro n
    rw [← Complex.exp_nat_mul, ← Complex.exp_add]
    congr 1
    push_cast
    ring
  calc ∑ n ∈ Finset.range W, Complex.exp (((α + n * δ : ℝ) : ℂ) * Complex.I)
      = ∑ n ∈ Finset.range W,
          Complex.exp ((α : ℂ) * Complex.I) * Complex.exp ((δ : ℂ) * Complex.I) ^ n :=
        Finset.sum_congr rfl fun n _ => hterm n
    _ = Complex.exp ((α : ℂ) * Complex.I)
          * ∑ n ∈ Finset.range W, Complex.exp ((δ : ℂ) * Complex.I) ^ n := by
        rw [Finset.mul_sum]
    _ = 0 := by
        rw [geom_sum_eq h1, ← Complex.exp_nat_mul, h2]
        simp

theorem sum_cos_arith (W : ℕ) (α δ : ℝ)
    (h1 : Complex.exp ((δ : ℂ) * Complex.I) ≠ 1)
    (h2 : Complex.exp ((W : ℂ) * ((δ : ℂ) * Complex.I)) = 1) :
    ∑ n ∈ Finset.range W, Real.cos (α + n * δ) = 0 := by
  have hre := congrArg Complex.re (sum_exp_arith W α δ h1 h2)
  rw [Complex.re_sum] at hre
  have hterm : ∀ n ∈ Finset.range W,
      (Complex.exp (((α + n * δ : ℝ) : ℂ) * Complex.I)).re = Real.cos (α + n * δ) :=
    fun n _ => Complex.exp_ofReal_mul_I_re _
  rw [Finset.sum_congr rfl hterm] at hre
  simpa using hre

theorem exp_two_incr_ne_one (S K : ℕ) (hS : 1 ≤ S) (hK : Odd K) :
    Complex.exp (((2 * incr S K : ℝ) : ℂ) * Complex.I) ≠ 1 := by
  intro hcontra
  obtain ⟨mm, hm⟩ := Complex.exp_eq_one_iff.1 hcontra
  have hSne : (S : ℝ) ≠ 0 := Nat.cast_ne_zero.2 (by omega)
  have hm2 : ((2 * incr S K : ℝ) : ℂ) * Complex.I
      = ((mm : ℂ) * (2 * (Real.pi : ℂ))) * Complex.I := by
    rw [hm]
    ring
  have hI : ((2 * incr S K : ℝ) : ℂ) = (mm : ℂ) * (2 * (Real.pi : ℂ)) :=
    mul_right_cancel₀ Complex.I_ne_zero hm2
  have hreal : (2 : ℝ) * incr S K = mm * (2 * Real.pi) := by
    exact_mod_cast hI
  rw [incr] at hreal
  have hreal2 : (2 : ℝ) * (2 * Real.pi * K / 4 / S) * S = mm * (2 * Real.pi) * S := by
    rw [hreal]
  have h4pi : (4 : ℝ) * Real.pi ≠ 0 := by
    have := Real.pi_pos
    positivity
  have hmul : (4 * Real.pi) * (K : ℝ) = (4 * Real.pi) * (2 * mm * S) := by
    field_simp at hreal
    linear_combination hreal
  have hK2 : (K : ℝ) = 2 * mm * S := mul_left_cancel₀ h4pi hmul
  have hKint : (K : ℤ) = 2 * mm * S := by
    exact_mod_cast hK2
  have : Even (K : ℤ) := ⟨mm * S, by rw [hKint]; ring⟩
  rw [Int.even_coe_nat] at this
  exact (Nat.odd_iff_not_even.1 hK) this

theorem exp_W_two_incr_eq_one (S K : ℕ) (hS : 1 ≤ S) :
    Complex.exp (((4 * S : ℕ) : ℂ) * (((2 * incr S K : ℝ) : ℂ) * Complex.I)) = 1 := by
  have hSne : (S : ℝ) ≠ 0 := Nat.cast_ne_zero.2 (by omega)
  have harg : (((4 * S : ℕ) : ℂ) * (((2 * incr S K : ℝ) : ℂ) * Complex.I))
      = (2 * K : ℕ) * (2 * Real.pi * Complex.I) := by
    have hr : ((4 * S : ℕ) : ℝ) * (2 * incr S K) = ((2 * K : ℕ) : ℝ) * (2 * Real.pi) := by
      rw [incr]
      push_cast
      field_simp
      ring
    calc ((4 * S : ℕ) : ℂ) * (((2 * incr S K : ℝ) : ℂ) * Complex.I)
        = ((((4 * S : ℕ) : ℝ) * (2 * incr S K) : ℝ) : ℂ) * Complex.I := by
          push_cast
          ring
      _ = ((((2 * K : ℕ) : ℝ) * (2 * Real.pi) : ℝ) : ℂ) * Complex.I := by rw [hr]
      _ = (2 * K : ℕ) * (2 * Real.pi * Complex.I) := by
          push_cast
          ring
  rw [harg]
  exact Complex.exp_nat_mul_two_pi_mul_I (2 * K)

/-- The quadrature orthogonality identity behind the demodulator: over
one burst of `4 * S` samples, the correlation of the reference table
against any phase-shifted copy of itself is `W * cos φ / 2`. -/
theorem sum_sin_mul_sin (S K : ℕ) (hS : 1 ≤ S) (hK : Odd K) (φ : ℝ) :
    ∑ n ∈ Finset.range (4 * S), Real.sin (((n : ℝ) + 1 / 2) * incr S K)
      * Real.sin (((n : ℝ) + 1 / 2) * incr S K + φ)
      = ((4 * S : ℕ) : ℝ) * Real.cos φ / 2 := by
  have hprod : ∀ n : ℕ,
      Real.sin (((n : ℝ) + 1 / 2) * incr S K) * Real.sin (((n : ℝ) + 1 / 2) * incr S K + φ)
      = (Real.cos φ - Real.cos ((incr S K + φ) + n * (2 * incr S K))) / 2 := by
    intro n
    have harg : (incr S K + φ) + (n : ℝ) * (2 * incr S K)
        = 2 * (((n : ℝ) + 1 / 2) * incr S K) + φ := by
      ring
    rw [harg, Real.cos_sub_cos]
    have e1 : (φ + (2 * (((n : ℝ) + 1 / 2) * incr S K) + φ)) / 2
        = ((n : ℝ) + 1 / 2) * incr S K + φ := by
      ring
    have e2 : (φ - (2 * (((n : ℝ) + 1 / 2) * incr S K) + φ)) / 2
        = -(((n : ℝ) + 1 / 2) * incr S K) := by
      ring
    rw [e1, e2, Real.sin_neg]
    ring
  rw [Finset.sum_congr rfl fun n _ => hprod n]
  rw [show (∑ n ∈ Finset.range (4 * S),
        (Real.cos φ - Real.cos ((incr S K + φ) + n * (2 * incr S K))) / 2)
      = ((∑ _n ∈ Finset.range (4 * S), Real.cos φ)
          - ∑ n ∈ Finset.range (4 * S), Real.cos ((incr S K + φ) + n * (2 * incr S K))) / 2
    from by rw [← Finset.sum_sub_distrib, Finset.sum_div]]
  rw [sum_cos_arith (4 * S) (incr S K + φ) (2 * incr S K)
    (exp_two_incr_ne_one S K hS hK) (by exact_mod_cast exp_W_two_incr_eq_one S K hS)]
  simp [Finset.sum_const, Finset.card_range]

theorem cos_three_S_incr (S K : ℕ) (hS : 1 ≤ S) (hK : Odd K) :
    Real.cos ((3 * S : ℝ) * incr S K) = 0 := by
  have hSne : (S : ℝ) ≠ 0 := Nat.cast_ne_zero.2 (by omega)
  obtain ⟨m, hm⟩ := hK
  have harg : (3 * (S : ℝ)) * incr S K = (2 * ((3 * m + 1 : ℕ) : ℝ) + 1) * Real.pi / 2 := by
    rw [incr, hm]
    push_cast
    field_simp
    ring
  rw [Real.cos_eq_zero_iff]
  exact ⟨(3 * m + 1 : ℕ), by exact_mod_cast harg⟩

theorem corr_approx (S K : ℕ) (A : ℝ) (g : ℕ → ℝ) (samp : ℤ → ℝ) (start : ℤ)
    (hs : ∀ n : ℕ, n < 4 * S →
      samp (start + (n : ℤ)) = ((pyRoundR (A * g n) : ℤ) : ℝ)) :
    |corrSum S K samp start - A * ∑ n ∈ Finset.range (4 * S), refVec S K n * g n|
      ≤ 2 * S := by
  have h1 : corrSum S K samp start
      = ∑ n ∈ Finset.range (4 * S), refVec S K n * ((pyRoundR (A * g n) : ℤ) : ℝ) := by
    rw [corrSum]
    exact Finset.sum_congr rfl fun n hn => by rw [hs n (Finset.mem_range.1 hn)]
  rw [h1, Finset.mul_sum, ← Finset.sum_sub_distrib]
  refine le_trans (Finset.abs_sum_le_sum_abs _ _) ?_
  have hbound : ∀ n ∈ Finset.range (4 * S),
      |refVec S K n * ((pyRoundR (A * g n) : ℤ) : ℝ) - A * (refVec S K n * g n)| ≤ 1 / 2 := by
    intro n _
    have hfac : refVec S K n * ((pyRoundR (A * g n) : ℤ) : ℝ) - A * (refVec S K n * g n)
        = refVec S K n * (((pyRoundR (A * g n) : ℤ) : ℝ) - A * g n) := by
      ring
    rw [hfac, abs_mul]
    have hsin1 : |refVec S K n| ≤ 1 := by
      rw [refVec]
      exact Real.abs_sin_le_one _
    calc |refVec S K n| * |((pyRoundR (A * g n) : ℤ) : ℝ) - A * g n|
        ≤ 1 * (1 / 2) :=
          mul_le_mul hsin1 (abs_pyRoundR_sub_le _) (abs_nonneg _) zero_le_one
      _ = 1 / 2 := by norm_num
  refine le_trans (Finset.sum_le_sum hbound) ?_
  rw [Finset.sum_const, Finset.card_range, nsmul_eq_mul]
  refine le_of_eq ?_
  push_cast
  ring

theorem corr_window_bounds (S K : ℕ) (hS : 1 ≤ S) (hK : Odd K) (A : ℝ)
    (samp : ℤ → ℝ) (datum : ℤ)
    (hcos : ∀ n : ℕ, n < 4 * S →
      samp (datum + (n : ℤ)) = ((pyRoundR (A * refVec S K n) : ℤ) : ℝ))
    (hsin : ∀ n : ℕ, n < 4 * S →
      samp (datum - (S : ℤ) + (n : ℤ))
        = ((pyRoundR (A * Real.sin ((((n : ℝ) + 3 * S) + 1 / 2) * incr S K)) : ℤ) : ℝ)) :
    |corrSum S K samp datum - A * (2 * S)| ≤ 2 * S ∧
    |corrSum S K samp (datum - (S : ℤ))| ≤ 2 * S := by
  constructor
  · have happrox := corr_approx S K A (fun n => refVec S K n) samp datum hcos
    have hsum : ∑ n ∈ Finset.range (4 * S), refVec S K n * refVec S K n = 2 * (S : ℝ) := by
      have hbase := sum_sin_mul_sin S K hS hK 0
      simp only [add_zero, Real.cos_zero, mul_one] at hbase
      have hmatch : ∑ n ∈ Finset.range (4 * S), refVec S K n * refVec S K n
          = ∑ n ∈ Finset.range (4 * S), Real.sin (((n : ℝ) + 1 / 2) * incr S K)
              * Real.sin (((n : ℝ) + 1 / 2) * incr S K) := by
        exact Finset.sum_congr rfl fun n _ => by rw [refVec]
      rw [hmatch, hbase]
      push_cast
      ring
    rw [hsum] at happrox
    exact happrox
  · have happrox := corr_approx S K A
      (fun n => Real.sin ((((n : ℝ) + 3 * S) + 1 / 2) * incr S K)) samp (datum - (S : ℤ)) hsin
    have hsum : ∑ n ∈ Finset.range (4 * S),
        refVec S K n * Real.sin ((((n : ℝ) + 3 * S) + 1 / 2) * incr S K) = 0 := by
      have hbase := sum_sin_mul_sin S K hS hK ((3 * S : ℝ) * incr S K)
      rw [cos_three_S_incr S K hS hK] at hbase
      simp only [mul_zero, zero_div] at hbase
      have hmatch : ∑ n ∈ Finset.range (4 * S),
          refVec S K n * Real.sin ((((n : ℝ) + 3 * S) + 1 / 2) * incr S K)
          = ∑ n ∈ Finset.range (4 * S), Real.sin (((n : ℝ) + 1 / 2) * incr S K)
              * Real.sin (((n : ℝ) + 1 / 2) * incr S K + (3 * S : ℝ) * incr S K) := by
        refine Finset.sum_congr rfl fun n _ => ?_
        rw [refVec]
        congr 1
        ring
      rw [hmatch, hbase]
    rw [hsum, mul_zero, sub_zero] at happrox
    exact happrox

theorem window_component_bounds (S K : ℕ) (hS : 1 ≤ S) (hK : Odd K) (A : ℝ)
    (samp : ℤ → ℝ) (datum : ℤ)
    (hcos : ∀ n : ℕ, n < 4 * S →
      samp (datum + (n : ℤ)) = ((pyRoundR (A * refVec S K n) : ℤ) : ℝ))
    (hsin : ∀ n : ℕ, n < 4 * S →
      samp (datum - (S : ℤ) + (n : ℤ))
        = ((pyRoundR (A * Real.sin ((((n : ℝ) + 3 * S) + 1 / 2) * incr S K)) : ℤ) : ℝ)) :
    |corrSum S K samp datum * (2 / ((4 * S : ℕ) : ℝ)) - A| ≤ 1 ∧
    |corrSum S K samp (datum - (S : ℤ)) * (-2 / ((4 * S : ℕ) : ℝ))| ≤ 1 := by
  obtain ⟨h1, h2⟩ := corr_window_bounds S K hS hK A samp datum hcos hsin
  have hSpos : (0 : ℝ) < S := by
    exact_mod_cast Nat.pos_of_ne_zero (by omega)
  have hWpos : (0 : ℝ) < ((4 * S : ℕ) : ℝ) := by
    push_cast
    linarith
  constructor
  · have heq : corrSum S K samp datum * (2 / ((4 * S : ℕ) : ℝ)) - A
        = (corrSum S K samp datum - A * (2 * S)) * (2 / ((4 * S : ℕ) : ℝ)) := by
      push_cast
      field_simp
      ring
    rw [heq, abs_mul, abs_of_pos (by positivity : (0:ℝ) < 2 / ((4 * S : ℕ) : ℝ))]
    calc |corrSum S K samp datum - A * (2 * S)| * (2 / ((4 * S : ℕ) : ℝ))
        ≤ (2 * S) * (2 / ((4 * S : ℕ) : ℝ)) := by
          apply mul_le_mul_of_nonneg_right h1 (by positivity)
      _ = 1 := by
          push_cast
          field_simp
          ring
  · rw [abs_mul, abs_div, abs_of_pos hWpos]
    have habs2 : |(-2 : ℝ)| = 2 := by norm_num
    rw [habs2]
    calc |corrSum S K samp (datum - (S : ℤ))| * (2 / ((4 * S : ℕ) : ℝ))
        ≤ (2 * S) * (2 / ((4 * S : ℕ) : ℝ)) := by
          apply mul_le_mul_of_nonneg_right h2 (by positivity)
      _ = 1 := by
          push_cast
          field_simp
          ring

theorem phasor_bounds (z : ℂ) (A : ℝ) (hA : 0 ≤ A)
    (hre : |z.re - A| ≤ 1) (him : |z.im| ≤ 1) :
    |Complex.abs z - A| ≤ 2 ∧ A - 1 ≤ z.re := by
  obtain ⟨hre1, hre2⟩ := abs_le.1 hre
  have h1 : A - 1 ≤ z.re := by linarith
  refine ⟨?_, h1⟩
  have habs_re : |z.re| ≤ A + 1 := by
    rw [abs_le]
    constructor <;> linarith
  have hub : Complex.abs z ≤ A + 2 := by
    have := Complex.abs_le_abs_re_add_abs_im z
    linarith
  have hlb : A - 1 ≤ Complex.abs z := by
    have hra := Complex.abs_re_le_abs z
    have := le_abs_self z.re
    linarith
  rw [abs_le]
  constructor <;> linarith

/-- The captured stereo stream as a function of frame position,
modelling the frame-indexed random reads (`setpos` / `readframes`) of
the audio-container boundary.  Positions outside the container read as
silence; the analyzer only reads in-range positions once its length
guard has passed. -/
noncomputable def capOf (fr : List (ℤ × ℤ)) : ℤ → ℝ × ℝ := fun p =>
  if 0 ≤ p then
    match fr[p.toNat]? with
    | some frm => ((frm.1 : ℝ), (frm.2 : ℝ))
    | none => (0, 0)
  else (0, 0)

theorem writeTwice_eq (l : List (ℤ × ℤ)) : writeTwice l = l ++ l := by
  simp [writeTwice]

theorem stimCell_normal (m : Meas) :
    stimCell m
      = List.replicate m.startDelay ((0 : ℤ), (0 : ℤ))
        ++ (driveWindow m.amplL1 m.amplR1 m.imbalanceOut m.cellSamples m.countWaves
        ++ (driveWindow m.amplL1 m.amplR1 m.imbalanceOut m.cellSamples m.countWaves
        ++ (silentWindow m.cellSamples
        ++ (silentWindow m.cellSamples
        ++ (driveWindow m.amplL2 m.amplR2 m.imbalanceOut m.cellSamples m.countWaves
        ++ driveWindow m.amplL2 m.amplR2 m.imbalanceOut m.cellSamples m.countWaves))))) := by
  rw [stimCell, writeTwice_eq, writeTwice_eq, writeTwice_eq]
  simp [List.append_assoc]

theorem driveWindow_length (ampL ampR : ℤ) (imbal : ℝ) (S K : ℕ) :
    (driveWindow ampL ampR imbal S K).length = 4 * S := by
  simp [driveWindow]

theorem driveWindow_getElem (ampL ampR : ℤ) (imbal : ℝ) (S K : ℕ) (i : ℕ) (hi : i < 4 * S) :
    (driveWindow ampL ampR imbal S K)[i]?
      = some (pyRoundR ((ampL : ℝ) * refVec S K i),
              pyRoundR ((ampR : ℝ) * refVec S K i * imbal)) := by
  simp [driveWindow, List.getElem?_map, List.getElem?_range, hi]

theorem stimCell_getElem_driveA (m : Meas) (j : ℕ) (hj : j < 8 * m.cellSamples) :
    (stimCell m)[m.startDelay + j]?
      = some (pyRoundR ((m.amplL1 : ℝ)
                * refVec m.cellSamples m.countWaves (j % (4 * m.cellSamples))),
              pyRoundR ((m.amplR1 : ℝ)
                * refVec m.cellSamples m.countWaves (j % (4 * m.cellSamples))
                * m.imbalanceOut)) := by
  rw [stimCell_normal]
  rw [List.getElem?_append_right (by simp : (List.replicate m.startDelay
    ((0 : ℤ), (0 : ℤ))).length ≤ m.startDelay + j)]
  simp only [List.length_replicate, Nat.add_sub_cancel_left]
  by_cases hcase : j < 4 * m.cellSamples
  · rw [List.getElem?_append_left (by rw [driveWindow_length]; exact hcase)]
    rw [driveWindow_getElem _ _ _ _ _ j hcase, Nat.mod_eq_of_lt hcase]
  · have h4 : 4 * m.cellSamples ≤ j := not_lt.1 hcase
    rw [List.getElem?_append_right (by rw [driveWindow_length]; exact h4),
      driveWindow_length]
    have hlt : j - 4 * m.cellSamples < 4 * m.cellSamples := by omega
    rw [List.getElem?_append_left (by rw [driveWindow_length]; exact hlt)]
    rw [driveWindow_getElem _ _ _ _ _ _ hlt]
    rw [Nat.mod_eq_sub_mod h4, Nat.mod_eq_of_lt hlt]

theorem stimCell_getElem_driveB (m : Meas) (j : ℕ) (hj : j < 8 * m.cellSamples) :
    (stimCell m)[m.startDelay + 16 * m.cellSamples + j]?
      = some (pyRoundR ((m.amplL2 : ℝ)
                * refVec m.cellSamples m.countWaves (j % (4 * m.cellSamples))),
              pyRoundR ((m.amplR2 : ℝ)
                * refVec m.cellSamples m.countWaves (j % (4 * m.cellSamples))
                * m.imbalanceOut)) := by
  rw [stimCell_normal]
  rw [List.getElem?_append_right (by simp; omega : (List.replicate m.startDelay
    ((0 : ℤ), (0 : ℤ))).length ≤ m.startDelay + 16 * m.cellSamples + j)]
  simp only [List.length_replicate]
  have hidx1 : m.startDelay + 16 * m.cellSamples + j - m.startDelay
      = 16 * m.cellSamples + j := by omega
  rw [hidx1]
  rw [List.getElem?_append_right (by rw [driveWindow_length]; omega), driveWindow_length]
  have hidx2 : 16 * m.cellSamples + j - 4 * m.cellSamples = 12 * m.cellSamples + j := by
    omega
  rw [hidx2]
  rw [List.getElem?_append_right (by rw [driveWindow_length]; omega), driveWindow_length]
  have hidx3 : 12 * m.cellSamples + j - 4 * m.cellSamples = 8 * m.cellSamples + j := by
    omega
  rw [hidx3]
  rw [List.getElem?_append_right (by simp [silentWindow]; omega)]
  simp only [silentWindow, List.length_replicate]
  have hidx4 : 8 * m.cellSamples + j - 4 * m.cellSamples = 4 * m.cellSamples + j := by
    omega
  rw [hidx4]
  rw [List.getElem?_append_right (by simp [silentWindow])]
  simp only [silentWindow, List.length_replicate]
  have hidx5 : 4 * m.cellSamples + j - 4 * m.cellSamples = j := by omega
  rw [hidx5]
  by_cases hcase : j < 4 * m.cellSamples
  · rw [List.getElem?_append_left (by rw [driveWindow_length]; exact hcase)]
    rw [driveWindow_getElem _ _ _ _ _ j hcase, Nat.mod_eq_of_lt hcase]
  · have h4 : 4 * m.cellSamples ≤ j := not_lt.1 hcase
    rw [List.getElem?_append_right (by rw [driveWindow_length]; exact h4),
      driveWindow_length]
    have hlt : j - 4 * m.cellSamples < 4 * m.cellSamples := by omega
    rw [driveWindow_getElem _ _ _ _ _ _ hlt]
    rw [Nat.mod_eq_sub_mod h4, Nat.mod_eq_of_lt hlt]

theorem capOf_natCast (fr : List (ℤ × ℤ)) (k : ℕ) (frm : ℤ × ℤ)
    (h : fr[k]? = some frm) :
    capOf fr (k : ℤ) = ((frm.1 : ℝ), (frm.2 : ℝ)) := by
  rw [capOf]
  simp only [Int.toNat_natCast, if_pos (by positivity : (0 : ℤ) ≤ (k : ℤ)), h]

theorem four_S_incr (S K : ℕ) (hS : 1 ≤ S) :
    (4 * (S : ℝ)) * incr S K = (K : ℝ) * (2 * Real.pi) := by
  have hSne : (S : ℝ) ≠ 0 := Nat.cast_ne_zero.2 (by omega)
  rw [incr]
  field_simp
  ring

/-- What the analyzer reads back from a drive window of the stimulus it
captured: the cosine-aligned read (starting at the window's `datum`)
returns the rounded reference table entries in order, and the
sine-aligned read (starting `cellSamples` earlier) returns the rounded
table shifted by three quarter-cells, wrapping across the two written
copies by the periodicity of the table. -/
theorem drive_reads (m : Meas) (hS : 1 ≤ m.cellSamples) (hOut : m.imbalanceOut = 1)
    (base : ℕ) (ampL ampR : ℤ)
    (hdrive : ∀ j : ℕ, j < 8 * m.cellSamples →
      (stimCell m)[m.startDelay + base + j]?
        = some (pyRoundR ((ampL : ℝ) * refVec m.cellSamples m.countWaves
                  (j % (4 * m.cellSamples))),
                pyRoundR ((ampR : ℝ) * refVec m.cellSamples m.countWaves
                  (j % (4 * m.cellSamples)) * m.imbalanceOut))) :
    (∀ n : ℕ, n < 4 * m.cellSamples →
      capOf (stimCell m) (((m.startDelay + base + 4 * m.cellSamples : ℕ) : ℤ) + (n : ℤ))
        = (((pyRoundR ((ampL : ℝ) * refVec m.cellSamples m.countWaves n) : ℤ) : ℝ),
           ((pyRoundR ((ampR : ℝ) * refVec m.cellSamples m.countWaves n) : ℤ) : ℝ))) ∧
    (∀ n : ℕ, n < 4 * m.cellSamples →
      capOf (stimCell m) (((m.startDelay + base + 4 * m.cellSamples : ℕ) : ℤ)
          - (m.cellSamples : ℤ) + (n : ℤ))
        = (((pyRoundR ((ampL : ℝ) * Real.sin ((((n : ℝ) + 3 * m.cellSamples) + 1 / 2)
              * incr m.cellSamples m.countWaves)) : ℤ) : ℝ),
           ((pyRoundR ((ampR : ℝ) * Real.sin ((((n : ℝ) + 3 * m.cellSamples) + 1 / 2)
              * incr m.cellSamples m.countWaves)) : ℤ) : ℝ))) := by
  have hout1 : ∀ j : ℕ, j < 8 * m.cellSamples →
      (stimCell m)[m.startDelay + base + j]?
        = some (pyRoundR ((ampL : ℝ) * refVec m.cellSamples m.countWaves
                  (j % (4 * m.cellSamples))),
                pyRoundR ((ampR : ℝ) * refVec m.cellSamples m.countWaves
                  (j % (4 * m.cellSamples)))) := by
    intro j hj
    rw [hdrive j hj, hOut, mul_one]
  constructor
  · intro n hn
    have hpos : (((m.startDelay + base + 4 * m.cellSamples : ℕ) : ℤ) + (n : ℤ))
        = ((m.startDelay + base + (4 * m.cellSamples + n) : ℕ) : ℤ) := by
      push_cast
      ring
    rw [hpos]
    have hj : 4 * m.cellSamples + n < 8 * m.cellSamples := by omega
    have hval := hout1 (4 * m.cellSamples + n) hj
    have hmod : (4 * m.cellSamples + n) % (4 * m.cellSamples) = n := by
      rw [Nat.add_mod_left]
      exact Nat.mod_eq_of_lt hn
    rw [hmod] at hval
    exact capOf_natCast _ _ _ hval
  · intro n hn
    have hpos : (((m.startDelay + base + 4 * m.cellSamples : ℕ) : ℤ)
          - (m.cellSamples : ℤ) + (n : ℤ))
        = ((m.startDelay + base + (3 * m.cellSamples + n) : ℕ) : ℤ) := by
      push_cast
      ring
    rw [hpos]
    have hj : 3 * m.cellSamples + n < 8 * m.cellSamples := by omega
    have hval := hout1 (3 * m.cellSamples + n) hj
    by_cases hsmall : n < m.cellSamples
    · have hmod : (3 * m.cellSamples + n) % (4 * m.cellSamples) = 3 * m.cellSamples + n :=
        Nat.mod_eq_of_lt (by omega)
      rw [hmod] at hval
      have hrv : refVec m.cellSamples m.countWaves (3 * m.cellSamples + n)
          = Real.sin ((((n : ℝ) + 3 * m.cellSamples) + 1 / 2)
              * incr m.cellSamples m.countWaves) := by
        rw [refVec]
        congr 1
        push_cast
        ring
      rw [hrv] at hval
      exact capOf_natCast _ _ _ hval
    · have hSle : m.cellSamples ≤ n := not_lt.1 hsmall
      have h4le : 4 * m.cellSamples ≤ 3 * m.cellSamples + n := by omega
      have hmod : (3 * m.cellSamples + n) % (4 * m.cellSamples) = n - m.cellSamples := by
        rw [Nat.mod_eq_sub_mod h4le]
        have heq : 3 * m.cellSamples + n - 4 * m.cellSamples = n - m.cellSamples := by
          omega
        rw [heq]
        exact Nat.mod_eq_of_lt (by omega)
      rw [hmod] at hval
      have hrv : refVec m.cellSamples m.countWaves (n - m.cellSamples)
          = Real.sin ((((n : ℝ) + 3 * m.cellSamples) + 1 / 2)
              * incr m.cellSamples m.countWaves) := by
        rw [refVec]
        have hcast : (((n - m.cellSamples : ℕ)) : ℝ) = (n : ℝ) - m.cellSamples := by
          push_cast [hSle]
          ring
        rw [hcast]
        have harg : (((n : ℝ) + 3 * m.cellSamples) + 1 / 2)
              * incr m.cellSamples m.countWaves
            = ((n : ℝ) - m.cellSamples + 1 / 2) * incr m.cellSamples m.countWaves
              + (m.countWaves : ℕ) * (2 * Real.pi) := by
          have h4S := four_S_incr m.cellSamples m.countWaves hS
          linear_combination h4S
        rw [harg, Real.sin_add_nat_mul_two_pi]
      rw [hrv] at hval
      exact capOf_natCast _ _ _ hval

theorem window_roundtrip_aux (S K : ℕ) (hS : 1 ≤ S) (hK : Odd K)
    (A : ℤ) (hA : 0 ≤ A) (samp : ℤ → ℝ) (datum : ℤ)
    (hcos : ∀ n : ℕ, n < 4 * S →
      samp (datum + (n : ℤ)) = ((pyRoundR ((A : ℝ) * refVec S K n) : ℤ) : ℝ))
    (hsin : ∀ n : ℕ, n < 4 * S →
      samp (datum - (S : ℤ) + (n : ℤ))
        = ((pyRoundR ((A : ℝ) * Real.sin ((((n : ℝ) + 3 * S) + 1 / 2) * incr S K)) : ℤ) : ℝ)) :
    |Complex.abs ⟨corrSum S K samp datum * (2 / ((4 * S : ℕ) : ℝ)),
        corrSum S K samp (datum - (S : ℤ)) * (-2 / ((4 * S : ℕ) : ℝ))⟩ - (A : ℝ)| ≤ 2 ∧
    (A : ℝ) - 1 ≤ corrSum S K samp datum * (2 / ((4 * S : ℕ) : ℝ)) ∧
    |corrSum S K samp (datum - (S : ℤ)) * (-2 / ((4 * S : ℕ) : ℝ))| ≤ 1 := by
  obtain ⟨h1, h2⟩ := window_component_bounds S K hS hK (A : ℝ) samp datum hcos hsin
  have hA' : (0 : ℝ) ≤ (A : ℝ) := by exact_mod_cast hA
  have hz := phasor_bounds ⟨corrSum S K samp datum * (2 / ((4 * S : ℕ) : ℝ)),
      corrSum S K samp (datum - (S : ℤ)) * (-2 / ((4 * S : ℕ) : ℝ))⟩ (A : ℝ) hA' h1 h2
  exact ⟨hz.1, hz.2, h2⟩

/-- C5 (round-trip law): for a cell with `imbalanceIn = imbalanceOut
= 1`, demodulating the exact stimulus the synthesizer produced for that
cell (no noise) yields phasors matching the programmed amplitudes on
the correct channel within 16-bit quantization error: each drive
window's phasor has magnitude within 2 quantization steps of the
programmed amplitude and phase approximately 0 (real part at least
`ampl - 1`, imaginary part at most 1 in magnitude), for `firstBurst`
left/right against `amplL1`/`amplR1` and `secondBurst` left/right
against `amplL2`/`amplR2`. -/
theorem c5_round_trip (m : Meas) (hS : 1 ≤ m.cellSamples) (hK : Odd m.countWaves)
    (hIn : m.imbalanceIn = 1) (hOut : m.imbalanceOut = 1)
    (hL1 : 0 ≤ m.amplL1) (hR1 : 0 ≤ m.amplR1) (hL2 : 0 ≤ m.amplL2) (hR2 : 0 ≤ m.amplR2) :
    (|Complex.abs (demodCell (capOf (stimCell m)) m 0).1.1 - (m.amplL1 : ℝ)| ≤ 2 ∧
      (m.amplL1 : ℝ) - 1 ≤ (demodCell (capOf (stimCell m)) m 0).1.1.re ∧
      |(demodCell (capOf (stimCell m)) m 0).1.1.im| ≤ 1) ∧
    (|Complex.abs (demodCell (capOf (stimCell m)) m 0).1.2 - (m.amplR1 : ℝ)| ≤ 2 ∧
      (m.amplR1 : ℝ) - 1 ≤ (demodCell (capOf (stimCell m)) m 0).1.2.re ∧
      |(demodCell (capOf (stimCell m)) m 0).1.2.im| ≤ 1) ∧
    (|Complex.abs (demodCell (capOf (stimCell m)) m 0).2.2.1.1 - (m.amplL2 : ℝ)| ≤ 2 ∧
      (m.amplL2 : ℝ) - 1 ≤ (demodCell (capOf (stimCell m)) m 0).2.2.1.1.re ∧
      |(demodCell (capOf (stimCell m)) m 0).2.2.1.1.im| ≤ 1) ∧
    (|Complex.abs (demodCell (capOf (stimCell m)) m 0).2.2.1.2 - (m.amplR2 : ℝ)| ≤ 2 ∧
      (m.amplR2 : ℝ) - 1 ≤ (demodCell (capOf (stimCell m)) m 0).2.2.1.2.re ∧
      |(demodCell (capOf (stimCell m)) m 0).2.2.1.2.im| ≤ 1) := by
  have hdA : ∀ j : ℕ, j < 8 * m.cellSamples →
      (stimCell m)[m.startDelay + 0 + j]?
        = some (pyRoundR ((m.amplL1 : ℝ) * refVec m.cellSamples m.countWaves
                  (j % (4 * m.cellSamples))),
                pyRoundR ((m.amplR1 : ℝ) * refVec m.cellSamples m.countWaves
                  (j % (4 * m.cellSamples)) * m.imbalanceOut)) := by
    intro j hj
    have := stimCell_getElem_driveA m j hj
    simpa using this
  have hreadsA := drive_reads m hS hOut 0 m.amplL1 m.amplR1 hdA
  have hreadsB := drive_reads m hS hOut (16 * m.cellSamples) m.amplL2 m.amplR2
    (fun j hj => stimCell_getElem_driveB m j hj)
  have hcosA1 : ∀ n : ℕ, n < 4 * m.cellSamples →
      (fun p => (capOf (stimCell m) p).1)
          (((0 : ℤ) + (m.startDelay : ℤ) + 4 * (m.cellSamples : ℤ)) + (n : ℤ))
        = ((pyRoundR ((m.amplL1 : ℝ) * refVec m.cellSamples m.countWaves n) : ℤ) : ℝ) := by
    intro n hn
    show (capOf (stimCell m)
      (((0 : ℤ) + (m.startDelay : ℤ) + 4 * (m.cellSamples : ℤ)) + (n : ℤ))).1 = _
    rw [show ((0 : ℤ) + (m.startDelay : ℤ) + 4 * (m.cellSamples : ℤ)) + (n : ℤ)
        = ((m.startDelay + 0 + 4 * m.cellSamples : ℕ) : ℤ) + (n : ℤ) from by push_cast; ring]
    rw [hreadsA.1 n hn]
  have hsinA1 : ∀ n : ℕ, n < 4 * m.cellSamples →
      (fun p => (capOf (stimCell m) p).1)
          (((0 : ℤ) + (m.startDelay : ℤ) + 4 * (m.cellSamples : ℤ))
            - (m.cellSamples : ℤ) + (n : ℤ))
        = ((pyRoundR ((m.amplL1 : ℝ) * Real.sin ((((n : ℝ) + 3 * m.cellSamples) + 1 / 2)
            * incr m.cellSamples m.countWaves)) : ℤ) : ℝ) := by
    intro n hn
    show (capOf (stimCell m)
      (((0 : ℤ) + (m.startDelay : ℤ) + 4 * (m.cellSamples : ℤ))
        - (m.cellSamples : ℤ) + (n : ℤ))).1 = _
    rw [show ((0 : ℤ) + (m.startDelay : ℤ) + 4 * (m.cellSamples : ℤ))
          - (m.cellSamples : ℤ) + (n : ℤ)
        = ((m.startDelay + 0 + 4 * m.cellSamples : ℕ) : ℤ)
          - (m.cellSamples : ℤ) + (n : ℤ) from by push_cast; ring]
    rw [hreadsA.2 n hn]
  have hcosA2 : ∀ n : ℕ, n < 4 * m.cellSamples →
      (fun p => (capOf (stimCell m) p).2)
          (((0 : ℤ) + (m.startDelay : ℤ) + 4 * (m.cellSamples : ℤ)) + (n : ℤ))
        = ((pyRoundR ((m.amplR1 : ℝ) * refVec m.cellSamples m.countWaves n) : ℤ) : ℝ) := by
    intro n hn
    show (capOf (stimCell m)
      (((0 : ℤ) + (m.startDelay : ℤ) + 4 * (m.cellSamples : ℤ)) + (n : ℤ))).2 = _
    rw [show ((0 : ℤ) + (m.startDelay : ℤ) + 4 * (m.cellSamples : ℤ)) + (n : ℤ)
        = ((m.startDelay + 0 + 4 * m.cellSamples : ℕ) : ℤ) + (n : ℤ) from by push_cast; ring]
    rw [hreadsA.1 n hn]
  have hsinA2 : ∀ n : ℕ, n < 4 * m.cellSamples →
      (fun p => (capOf (stimCell m) p).2)
          (((0 : ℤ) + (m.startDelay : ℤ) + 4 * (m.cellSamples : ℤ))
            - (m.cellSamples : ℤ) + (n : ℤ))
        = ((pyRoundR ((m.amplR1 : ℝ) * Real.sin ((((n : ℝ) + 3 * m.cellSamples) + 1 / 2)
            * incr m.cellSamples m.countWaves)) : ℤ) : ℝ) := by
    intro n hn
    show (capOf (stimCell m)
      (((0 : ℤ) + (m.startDelay : ℤ) + 4 * (m.cellSamples : ℤ))
        - (m.cellSamples : ℤ) + (n : ℤ))).2 = _
    rw [show ((0 : ℤ) + (m.startDelay : ℤ) + 4 * (m.cellSamples : ℤ))
          - (m.cellSamples : ℤ) + (n : ℤ)
        = ((m.startDelay + 0 + 4 * m.cellSamples : ℕ) : ℤ)
          - (m.cellSamples : ℤ) + (n : ℤ) from by push_cast; ring]
    rw [hreadsA.2 n hn]
  have hcosB1 : ∀ n : ℕ, n < 4 * m.cellSamples →
      (fun p => (capOf (stimCell m) p).1)
          (((0 : ℤ) + (m.startDelay : ℤ) + 4 * (m.cellSamples : ℤ)
            + 2 * (4 * (m.cellSamples : ℤ)) + 2 * (4 * (m.cellSamples : ℤ))) + (n : ℤ))
        = ((pyRoundR ((m.amplL2 : ℝ) * refVec m.cellSamples m.countWaves n) : ℤ) : ℝ) := by
    intro n hn
    show (capOf (stimCell m)
      (((0 : ℤ) + (m.startDelay : ℤ) + 4 * (m.cellSamples : ℤ)
        + 2 * (4 * (m.cellSamples : ℤ)) + 2 * (4 * (m.cellSamples : ℤ))) + (n : ℤ))).1 = _
    rw [show ((0 : ℤ) + (m.startDelay : ℤ) + 4 * (m.cellSamples : ℤ)
          + 2 * (4 * (m.cellSamples : ℤ)) + 2 * (4 * (m.cellSamples : ℤ))) + (n : ℤ)
        = ((m.startDelay + 16 * m.cellSamples + 4 * m.cellSamples : ℕ) : ℤ) + (n : ℤ)
        from by push_cast; ring]
    rw [hreadsB.1 n hn]
  have hsinB1 : ∀ n : ℕ, n < 4 * m.cellSamples →
      (fun p => (capOf (stimCell m) p).1)
          (((0 : ℤ) + (m.startDelay : ℤ) + 4 * (m.cellSamples : ℤ)
            + 2 * (4 * (m.cellSamples : ℤ)) + 2 * (4 * (m.cellSamples : ℤ)))
            - (m.cellSamples : ℤ) + (n : ℤ))
        = ((pyRoundR ((m.amplL2 : ℝ) * Real.sin ((((n : ℝ) + 3 * m.cellSamples) + 1 / 2)
            * incr m.cellSamples m.countWaves)) : ℤ) : ℝ) := by
    intro n hn
    show (capOf (stimCell m)
      (((0 : ℤ) + (m.startDelay : ℤ) + 4 * (m.cellSamples : ℤ)
        + 2 * (4 * (m.cellSamples : ℤ)) + 2 * (4 * (m.cellSamples : ℤ)))
        - (m.cellSamples : ℤ) + (n : ℤ))).1 = _
    rw [show ((0 : ℤ) + (m.startDelay : ℤ) + 4 * (m.cellSamples : ℤ)
          + 2 * (4 * (m.cellSamples : ℤ)) + 2 * (4 * (m.cellSamples : ℤ)))
          - (m.cellSamples : ℤ) + (n : ℤ)
        = ((m.startDelay + 16 * m.cellSamples + 4 * m.cellSamples : ℕ) : ℤ)
          - (m.cellSamples : ℤ) + (n : ℤ) from by push_cast; ring]
    rw [hreadsB.2 n hn]
  have hcosB2 : ∀ n : ℕ, n < 4 * m.cellSamples →
      (fun p => (capOf (stimCell m) p).2)
          (((0 : ℤ) + (m.startDelay : ℤ) + 4 * (m.cellSamples : ℤ)
            + 2 * (4 * (m.cellSamples : ℤ)) + 2 * (4 * (m.cellSamples : ℤ))) + (n : ℤ))
        = ((pyRoundR ((m.amplR2 : ℝ) * refVec m.cellSamples m.countWaves n) : ℤ) : ℝ) := by
    intro n hn
    show (capOf (stimCell m)
      (((0 : ℤ) + (m.startDelay : ℤ) + 4 * (m.cellSamples : ℤ)
        + 2 * (4 * (m.cellSamples : ℤ)) + 2 * (4 * (m.cellSamples : ℤ))) + (n : ℤ))).2 = _
    rw [show ((0 : ℤ) + (m.startDelay : ℤ) + 4 * (m.cellSamples : ℤ)
          + 2 * (4 * (m.cellSamples : ℤ)) + 2 * (4 * (m.cellSamples : ℤ))) + (n : ℤ)
        = ((m.startDelay + 16 * m.cellSamples + 4 * m.cellSamples : ℕ) : ℤ) + (n : ℤ)
        from by push_cast; ring]
    rw [hreadsB.1 n hn]
  have hsinB2 : ∀ n : ℕ, n < 4 * m.cellSamples →
      (fun p => (capOf (stimCell m) p).2)
          (((0 : ℤ) + (m.startDelay : ℤ) + 4 * (m.cellSamples : ℤ)
            + 2 * (4 * (m.cellSamples : ℤ)) + 2 * (4 * (m.cellSamples : ℤ)))
            - (m.cellSamples : ℤ) + (n : ℤ))
        = ((pyRoundR ((m.amplR2 : ℝ) * Real.sin ((((n : ℝ) + 3 * m.cellSamples) + 1 / 2)
            * incr m.cellSamples m.countWaves)) : ℤ) : ℝ) := by
    intro n hn
    show (capOf (stimCell m)
      (((0 : ℤ) + (m.startDelay : ℤ) + 4 * (m.cellSamples : ℤ)
        + 2 * (4 * (m.cellSamples : ℤ)) + 2 * (4 * (m.cellSamples : ℤ)))
        - (m.cellSamples : ℤ) + (n : ℤ))).2 = _
    rw [show ((0 : ℤ) + (m.startDelay : ℤ) + 4 * (m.cellSamples : ℤ)
          + 2 * (4 * (m.cellSamples : ℤ)) + 2 * (4 * (m.cellSamples : ℤ)))
          - (m.cellSamples : ℤ) + (n : ℤ)
        = ((m.startDelay + 16 * m.cellSamples + 4 * m.cellSamples : ℕ) : ℤ)
          - (m.cellSamples : ℤ) + (n : ℤ) from by push_cast; ring]
    rw [hreadsB.2 n hn]
  simp only [demodCell, demodWindow, hIn, div_one]
  exact ⟨window_roundtrip_aux m.cellSamples m.countWaves hS hK m.amplL1 hL1 _ _ hcosA1 hsinA1,
    window_roundtrip_aux m.cellSamples m.countWaves hS hK m.amplR1 hR1 _ _ hcosA2 hsinA2,
    window_roundtrip_aux m.cellSamples m.countWaves hS hK m.amplL2 hL2 _ _ hcosB1 hsinB1,
    window_roundtrip_aux m.cellSamples m.countWaves hS hK m.amplR2 hR2 _ _ hcosB2 hsinB2⟩

/-- A concrete one-cell document for exercising the round-trip law:
default amplitudes 28000, no start delay, unit balance factors, and the
smallest geometry (`cellSamples = 1`, `countWaves = 1`). -/
def c5Cell : Meas := ⟨28000, 28000, 28000, 28000, 44100, 1, 1, 0, 1, 1⟩

theorem c5_round_trip_witness :
    1 ≤ c5Cell.cellSamples ∧ Odd c5Cell.countWaves ∧
    c5Cell.imbalanceIn = 1 ∧ c5Cell.imbalanceOut = 1 ∧
    0 ≤ c5Cell.amplL1 ∧ 0 ≤ c5Cell.amplR1 ∧ 0 ≤ c5Cell.amplL2 ∧ 0 ≤ c5Cell.amplR2 ∧
    ((|Complex.abs (demodCell (capOf (stimCell c5Cell)) c5Cell 0).1.1
        - (c5Cell.amplL1 : ℝ)| ≤ 2 ∧
      (c5Cell.amplL1 : ℝ) - 1 ≤ (demodCell (capOf (stimCell c5Cell)) c5Cell 0).1.1.re ∧
      |(demodCell (capOf (stimCell c5Cell)) c5Cell 0).1.1.im| ≤ 1) ∧
    (|Complex.abs (demodCell (capOf (stimCell c5Cell)) c5Cell 0).1.2
        - (c5Cell.amplR1 : ℝ)| ≤ 2 ∧
      (c5Cell.amplR1 : ℝ) - 1 ≤ (demodCell (capOf (stimCell c5Cell)) c5Cell 0).1.2.re ∧
      |(demodCell (capOf (stimCell c5Cell)) c5Cell 0).1.2.im| ≤ 1) ∧
    (|Complex.abs (demodCell (capOf (stimCell c5Cell)) c5Cell 0).2.2.1.1
        - (c5Cell.amplL2 : ℝ)| ≤ 2 ∧
      (c5Cell.amplL2 : ℝ) - 1 ≤ (demodCell (capOf (stimCell c5Cell)) c5Cell 0).2.2.1.1.re ∧
      |(demodCell (capOf (stimCell c5Cell)) c5Cell 0).2.2.1.1.im| ≤ 1) ∧
    (|Complex.abs (demodCell (capOf (stimCell c5Cell)) c5Cell 0).2.2.1.2
        - (c5Cell.amplR2 : ℝ)| ≤ 2 ∧
      (c5Cell.amplR2 : ℝ) - 1 ≤ (demodCell (capOf (stimCell c5Cell)) c5Cell 0).2.2.1.2.re ∧
      |(demodCell (capOf (stimCell c5Cell)) c5Cell 0).2.2.1.2.im| ≤ 1)) :=
  ⟨by decide, by decide, rfl, rfl, by decide, by decide, by decide, by decide,
    c5_round_trip c5Cell (by decide) (by decide) rfl rfl
      (by decide) (by decide) (by decide) (by decide)⟩
